import Mathlib

/-!
Verification development for the meshery-traefik-mesh adapter.

The Go sources under verification are `main.go` and `traefik/oam/register.go`.
Pure fragments are translated directly into Lean; effectful library calls
(file-system walk, JSON codecs, HTTP transport, release/chart-index queries)
are passed in as explicit inputs (oracles), so that every function here is a
faithful, executable shallow embedding of the control flow the repository owns.

Go strings that play the role of file paths are modelled as lists of
characters (`GoStr`); the path suffixes involved are ASCII, so the byte/rune
distinction is immaterial.
-/

/-- Go strings modelled as character lists (paths, names, raw documents). -/
abbrev GoStr := List Char

/-- The Unix path separator used by `path/filepath` on the target platform. -/
def pathSep : Char := '/'

/-- Embedding of Go `filepath.Base`: empty string gives ".", trailing
separators are dropped, then everything after the last separator is kept;
a string of only separators gives "/". -/
def goBase (p : GoStr) : GoStr :=
  if p = [] then ['.']
  else
    let r := p.reverse.dropWhile (fun c => c == pathSep)
    if r = [] then [pathSep]
    else (r.takeWhile (fun c => c != pathSep)).reverse

/-- Embedding of Go `strings.TrimSuffix`: drops `sfx` from the end of `s`
when present, otherwise returns `s` unchanged. -/
def goTrimSuffix (s sfx : GoStr) : GoStr :=
  if sfx.isSuffixOf s then s.take (s.length - sfx.length) else s

/-- The definition-file suffix matched by `load` (pattern `*_definition.json`). -/
def defSuffix : GoStr := "_definition.json".data

/-- The schema-file suffix appended by `load`
(`%s.meshery.layer5io.schema.json`). -/
def schemaSuffix : GoStr := ".meshery.layer5io.schema.json".data

/-- Embedding of `filepath.Match("*_definition.json", name)`: the `*` matches
any (possibly empty) separator-free run, the rest is literal, so a name
matches exactly when it ends with `_definition.json` and the part before the
suffix contains no separator. -/
def matchDefinitionJson (name : GoStr) : Bool :=
  defSuffix.isSuffixOf name &&
    (name.take (name.length - defSuffix.length)).all (fun c => c != pathSep)

/-- One entry handed to the `filepath.Walk` callback inside `load`:
the visited path, whether it is a directory, and the walk error (if any)
passed to the callback for this entry. -/
structure WalkEntry where
  path : GoStr
  isDir : Bool
  errMsg : Option String
deriving DecidableEq, Repr

/-- Mirror of the Go struct `schemaDefinitionPathSet` in `register.go`. -/
structure SchemaDefinitionPathSet where
  oamDefinitionPath : GoStr
  jsonSchemaPath : GoStr
  name : GoStr
deriving DecidableEq, Repr

/-- Embedding of `load` from `register.go`: folds the walk callback over the
sequence of entries `filepath.Walk` visits. A walk error aborts the whole
load; directories are skipped; a file whose base name matches
`*_definition.json` contributes one path-set whose schema path replaces the
`_definition.json` suffix by `.meshery.layer5io.schema.json` and whose name
is `filepath.Base` of the suffix-stripped path. -/
def load : List WalkEntry → Except String (List SchemaDefinitionPathSet)
  | [] => .ok []
  | e :: rest =>
    match e.errMsg with
    | some msg => .error msg
    | none =>
      if e.isDir then load rest
      else if matchDefinitionJson (goBase e.path) then
        match load rest with
        | .error msg => .error msg
        | .ok r =>
          .ok (⟨e.path,
                goTrimSuffix e.path defSuffix ++ schemaSuffix,
                goBase (goTrimSuffix e.path defSuffix)⟩ :: r)
      else load rest

/-- Embedding of `mesheryServerAddress` from `main.go`; the argument is the
value of `os.Getenv("MESHERY_SERVER")` (empty when the variable is unset). -/
def mesheryServerAddress (envMesheryServer : String) : String :=
  if envMesheryServer ≠ "" then
    if envMesheryServer.startsWith "http" then envMesheryServer
    else "http://" ++ envMesheryServer
  else "http://localhost:9081"

/-- Go `map[string]string` assignment `m[k] = v`, maps modelled as lookup
functions. -/
def mapSet (m : String → Option String) (k v : String) : String → Option String :=
  fun q => if q = k then some v else m q

/-- A JSON value stored in the parsed definition map `map[string]interface{}`;
only the two string fields written by the code are distinguished, every other
value is opaque. -/
inductive JsonVal where
  | str : String → JsonVal
  | node : Nat → JsonVal
deriving DecidableEq, Repr

/-- Go `map[string]interface{}` assignment, maps modelled as lookup functions. -/
def jmapSet (m : String → Option JsonVal) (k : String) (v : JsonVal) :
    String → Option JsonVal :=
  fun q => if q = k then some v else m q

/-- Modelled from the spec: `config.OAMAdapterNameMetadataKey`, the
adapter-identity metadata key declared in `internal/config` (not under the
given sources); its concrete string value is opaque, only its identity and
distinctness from the component-category key matter. -/
def OAMAdapterNameMetadataKey : String := "adapter.meshery.io/name"

/-- Modelled from the spec: `config.OAMComponentCategoryMetadataKey`, the
component-category metadata key declared in `internal/config` (not under the
given sources); value opaque, distinct from the adapter-identity key. -/
def OAMComponentCategoryMetadataKey : String := "adapter.meshery.io/component-category"

/-- Modelled from the spec: `config.TraefikOperation`, the adapter's
operation-name constant used by the static registration paths; value opaque. -/
def TraefikOperation : String := "traefik-operation"

/-- Modelled from the spec: `config.TraefikMeshOperation`, the adapter's
operation-name constant used by the dynamic registration path; value opaque. -/
def TraefikMeshOperation : String := "traefik-mesh-operation"

/-- Mirror of `adapter.OAMRegistrantDefinitionPath` as populated by
`RegisterWorkloads` / `RegisterTraits` (field names kept, including the
source's `OAMDefintionPath` spelling). -/
structure OAMRegistrantDefinitionPath where
  OAMDefintionPath : GoStr
  OAMRefSchemaPath : GoStr
  Host : String
  Metadata : String → Option String

/-- The loop body of `RegisterWorkloads`: builds one registrant definition
path from one path-set, with the adapter-identity metadata entry and, for
names ending in "addon", the component-category entry. -/
def workloadEntry (host : String) (ps : SchemaDefinitionPathSet) :
    OAMRegistrantDefinitionPath :=
  let metadata := mapSet (fun _ => none) OAMAdapterNameMetadataKey TraefikOperation
  let metadata :=
    if "addon".data.isSuffixOf ps.name then
      mapSet metadata OAMComponentCategoryMetadataKey "addon"
    else metadata
  ⟨ps.oamDefinitionPath, ps.jsonSchemaPath, host, metadata⟩

/-- The loop body of `RegisterTraits`: like `workloadEntry` but with no
addon/category handling. -/
def traitEntry (host : String) (ps : SchemaDefinitionPathSet) :
    OAMRegistrantDefinitionPath :=
  ⟨ps.oamDefinitionPath, ps.jsonSchemaPath, host,
    mapSet (fun _ => none) OAMAdapterNameMetadataKey TraefikOperation⟩

/-- The `oamRDP` batch built by `RegisterWorkloads` from the loaded path-sets. -/
def registerWorkloadsRDP (pathSets : List SchemaDefinitionPathSet) (host : String) :
    List OAMRegistrantDefinitionPath :=
  pathSets.map (workloadEntry host)

/-- The `oamRDP` batch built by `RegisterTraits` from the loaded path-sets. -/
def registerTraitsRDP (pathSets : List SchemaDefinitionPathSet) (host : String) :
    List OAMRegistrantDefinitionPath :=
  pathSets.map (traitEntry host)

/-- The two fixed fields written into the parsed definition map by
`RegisterWorkLoadsDynamically` before packaging
(`definitionMap["apiVersion"] = ...; definitionMap["kind"] = ...`). -/
def injectOamFields (m : String → Option JsonVal) : String → Option JsonVal :=
  jmapSet (jmapSet m "apiVersion" (.str "core.oam.dev/v1alpha1"))
    "kind" (.str "WorkloadDefinition")

/-- Mirror of `adapter.OAMRegistrantData` (`ord`) as populated by
`RegisterWorkLoadsDynamically`. -/
structure OAMRegistrantData where
  OAMRefSchema : GoStr
  Host : String
  OAMDefinition : String → Option JsonVal
  Metadata : String → Option String

/-- Construction of `ord` for one definition inside
`RegisterWorkLoadsDynamically`: schema, host, the field-injected definition
map, and the adapter-identity metadata. -/
def buildOrd (host : String) (schema : GoStr) (m : String → Option JsonVal) :
    OAMRegistrantData :=
  ⟨schema, host, injectOamFields m,
    mapSet (fun _ => none) OAMAdapterNameMetadataKey TraefikMeshOperation⟩

/-- `backoffOpt.MaxExlapsedTime = 10 * time.Minute` from
`RegisterWorkLoadsDynamically`, in milliseconds. -/
def maxElapsedTimeMs : Nat := 10 * 60 * 1000

/-- The nominal sleep interval (ms) before retry `k+1`, following
`backoff.NewExponentialBackOff()`: initial interval 500ms, multiplier 1.5,
interval capped at 60s. Randomization is modelled at its midpoint (the
current interval) and millisecond integer arithmetic stands in for the
library's float durations. -/
def intervalSeq : Nat → Nat
  | 0 => 500
  | k + 1 => min (intervalSeq k * 3 / 2) 60000

/-- Elapsed time (ms) when the backoff is consulted after attempt `k`:
the sum of the sleeps taken so far (operations modelled as instantaneous). -/
def elapsedSeq : Nat → Nat
  | 0 => 0
  | k + 1 => elapsedSeq k + intervalSeq k

theorem intervalSeq_ge (k : Nat) : 500 ≤ intervalSeq k := by
  induction k with
  | zero => simp [intervalSeq]
  | succ k ih =>
    simp only [intervalSeq]
    refine le_min ?_ (by norm_num)
    calc 500 ≤ 1500 / 2 := by norm_num
      _ ≤ intervalSeq k * 3 / 2 := Nat.div_le_div_right (by omega)

theorem elapsedSeq_ge (k : Nat) : 500 * k ≤ elapsedSeq k := by
  induction k with
  | zero => simp [elapsedSeq]
  | succ k ih =>
    have h := intervalSeq_ge k
    simp only [elapsedSeq]
    omega

/-- Result of one execution of the closure passed to `backoff.Retry`:
success, a `backoff.Permanent` error, or a retryable error. -/
inductive AttemptOutcome where
  | success
  | permanentErr (msg : String)
  | transientErr (msg : String)
deriving DecidableEq, Repr

/-- An HTTP response as observed by the closure (`resp.Status`,
`resp.StatusCode`). -/
structure HttpResp where
  statusCode : Nat
  status : String
deriving DecidableEq, Repr

/-- The status test in the closure: an error is raised exactly when the code
is none of `http.StatusCreated` (201), `http.StatusOK` (200),
`http.StatusAccepted` (202). -/
def registerStatusFailed (c : Nat) : Bool :=
  c != 201 && c != 200 && c != 202

/-- The error message built by the closure for a non-success status. -/
def regFailMsg (r : HttpResp) : String :=
  "register process failed, host returned status: " ++ r.status ++
    " with status code " ++ toString r.statusCode

/-- One execution of the retry closure in `RegisterWorkLoadsDynamically`,
with its effects supplied as inputs: `marshalError` is the outcome of
`json.Marshal(ord)` (`some msg` = failure), `resp` the outcome of
`http.Post` (`.error msg` = transport failure). The second component counts
HTTP requests issued by this execution. A marshal failure is wrapped in
`backoff.Permanent` and issues no request. -/
def postClosure (marshalError : Option String) (resp : Except String HttpResp) :
    AttemptOutcome × Nat :=
  match marshalError with
  | some msg => (.permanentErr msg, 0)
  | none =>
    match resp with
    | .error msg => (.transientErr msg, 1)
    | .ok r =>
      if registerStatusFailed r.statusCode then (.transientErr (regFailMsg r), 1)
      else (.success, 1)

/-- Embedding of `backoff.Retry(op, backoffOpt)` starting at attempt `k`:
run the operation; success returns; a permanent error returns its payload;
a retryable error retries after the next interval unless the elapsed time
already exceeds `maxE`, in which case the last error is returned. The second
component totals the HTTP requests issued. -/
def retryRun (op : Nat → AttemptOutcome × Nat) (maxE : Nat) (k : Nat) :
    Except String Unit × Nat :=
  match op k with
  | (.success, c) => (.ok (), c)
  | (.permanentErr msg, c) => (.error msg, c)
  | (.transientErr msg, c) =>
    if h : maxE < elapsedSeq k then (.error msg, c)
    else
      match retryRun op maxE (k + 1) with
      | (r, c2) => (r, c + c2)
termination_by maxE / 500 + 1 - k
decreasing_by
  have h1 := elapsedSeq_ge k
  have h2 : elapsedSeq k ≤ maxE := Nat.le_of_not_lt h
  have h3 : k ≤ maxE / 500 := (Nat.le_div_iff_mul_le (by norm_num)).mpr (by omega)
  omega

theorem retryRun_success {op : Nat → AttemptOutcome × Nat} {maxE k c : Nat}
    (h : op k = (.success, c)) : retryRun op maxE k = (.ok (), c) := by
  unfold retryRun
  rw [h]

theorem retryRun_permanent {op : Nat → AttemptOutcome × Nat} {maxE k c : Nat}
    {msg : String} (h : op k = (.permanentErr msg, c)) :
    retryRun op maxE k = (.error msg, c) := by
  unfold retryRun
  rw [h]

theorem retryRun_transient_stop {op : Nat → AttemptOutcome × Nat} {maxE k c : Nat}
    {msg : String} (h : op k = (.transientErr msg, c))
    (hm : maxE < elapsedSeq k) : retryRun op maxE k = (.error msg, c) := by
  unfold retryRun
  rw [h]
  simp [hm]

theorem retryRun_transient_go {op : Nat → AttemptOutcome × Nat} {maxE k c : Nat}
    {msg : String} (h : op k = (.transientErr msg, c))
    (hm : elapsedSeq k ≤ maxE) :
    retryRun op maxE k =
      ((retryRun op maxE (k + 1)).1, c + (retryRun op maxE (k + 1)).2) := by
  conv_lhs => unfold retryRun
  rw [h]
  simp [Nat.not_lt.mpr hm]

/-- The external effects of one iteration of the loop in
`RegisterWorkLoadsDynamically`: the outcome of `json.Unmarshal(def)` as a
parsed definition map, the outcome of `json.Marshal(ord)` (independent of
the attempt, marshalling being deterministic), and the outcome of the `k`-th
`http.Post` for this definition. -/
structure EntryOracle where
  parseResult : Except String (String → Option JsonVal)
  marshalError : Option String
  responses : Nat → Except String HttpResp

/-- One iteration of the loop body of `RegisterWorkLoadsDynamically` after
the schema access: unmarshal the definition (failure returns immediately,
with no HTTP request), then run the retried POST closure under the 10-minute
elapsed-time cap. Returns the iteration's result and its HTTP request count. -/
def processEntry (o : EntryOracle) : Except String Unit × Nat :=
  match o.parseResult with
  | .error msg => (.error msg, 0)
  | .ok _ => retryRun (fun k => postClosure o.marshalError (o.responses k)) maxElapsedTimeMs 0

/-- Result of the whole loop of `RegisterWorkLoadsDynamically`:
normal completion, an error return, or a Go panic from an out-of-range
`comp.Schemas[i]` access. -/
inductive RunResult where
  | ok
  | err (msg : String)
  | panic
deriving DecidableEq, Repr

/-- The loop `for i, def := range comp.Definitions` of
`RegisterWorkLoadsDynamically`, iterating with index `i`: each iteration
first reads `comp.Schemas[i]` (out of range ⇒ panic — the code performs no
length check), then processes the entry; an iteration error aborts the loop.
The second component totals the HTTP requests issued. -/
def registerLoopAux (schemas : List GoStr) (oracles : Nat → EntryOracle) :
    List GoStr → Nat → RunResult × Nat
  | [], _ => (.ok, 0)
  | _ :: rest, i =>
    match schemas.get? i with
    | none => (.panic, 0)
    | some _ =>
      match processEntry (oracles i) with
      | (.error msg, c) => (.err msg, c)
      | (.ok _, c) =>
        match registerLoopAux schemas oracles rest (i + 1) with
        | (r, c2) => (r, c + c2)

/-- The registration loop of `RegisterWorkLoadsDynamically` over the fetched
`comp.Definitions` and `comp.Schemas`, starting at index 0. -/
def registerLoop (defs schemas : List GoStr) (oracles : Nat → EntryOracle) :
    RunResult × Nat :=
  registerLoopAux schemas oracles defs 0

/-- A release from the external release listing (`rel.TagName`). -/
structure Release where
  TagName : String
deriving DecidableEq, Repr

/-- The scan loop of `getLatestValidAppVersionAndChartVersion`: the first
release (in the order given, most recent first) whose tag resolves in the
chart index wins; otherwise the not-found error is returned. -/
def findValidRelease (chartVersionOf : String → Option String) :
    List Release → Except String (String × String)
  | [] => .error "Could not find latest stable release"
  | r :: rest =>
    match chartVersionOf r.TagName with
    | some cv => .ok (r.TagName, cv)
    | none => findValidRelease chartVersionOf rest

/-- Embedding of `getLatestValidAppVersionAndChartVersion`.
Modelled from the spec: `config.GetLatestReleases(10)` lives in
`internal/config` (not under the given sources); per the spec it supplies the
10 most recent releases, most-recent-first, here passed as `releasesResult`;
`kubernetes.HelmAppVersionToChartVersion` (the external chart index) is the
oracle `chartVersionOf`. -/
def getLatestValidAppVersionAndChartVersion
    (releasesResult : Except String (List Release))
    (chartVersionOf : String → Option String) : Except String (String × String) :=
  match releasesResult with
  | .error e => .error ("Could not get latest stable release: " ++ e)
  | .ok rels => findValidRelease chartVersionOf rels

/-- Claim C8: when the MESHERY_SERVER environment variable is unset (empty),
`mesheryServerAddress` returns exactly "http://localhost:9081". -/
theorem meshery_server_default : mesheryServerAddress "" = "http://localhost:9081" := by
  decide

/-- Claim C6: the dynamic registration flow sets exactly the two fixed fields
apiVersion and kind in the parsed definition map before packaging it into the
registrant entry, and every other key of the parsed definition is unchanged. -/
theorem inject_oam_fields_frame (host : String) (schema : GoStr)
    (m : String → Option JsonVal) (k : String)
    (hk1 : k ≠ "apiVersion") (hk2 : k ≠ "kind") :
    (buildOrd host schema m).OAMDefinition "apiVersion"
        = some (.str "core.oam.dev/v1alpha1")
    ∧ (buildOrd host schema m).OAMDefinition "kind"
        = some (.str "WorkloadDefinition")
    ∧ (buildOrd host schema m).OAMDefinition k = m k := by
  refine ⟨?_, ?_, ?_⟩ <;>
    simp [buildOrd, injectOamFields, jmapSet, hk1, hk2]

theorem inject_oam_fields_frame_witness :
    ("spec" ≠ "apiVersion")
    ∧ (buildOrd "h" [] (fun _ => none)).OAMDefinition "spec" = none :=
  ⟨by decide,
   (inject_oam_fields_frame "h" [] (fun _ => none) "spec" (by decide) (by decide)).2.2⟩

/-- Claim C7: every registrant entry built by RegisterWorkloads,
RegisterTraits, or RegisterWorkLoadsDynamically carries the adapter-identity
metadata key, mapped to the adapter's operation-name constant used by that
path. -/
theorem metadata_adapter_identity
    (pathSets pathSets2 : List SchemaDefinitionPathSet) (host host2 : String)
    (e e2 : OAMRegistrantDefinitionPath)
    (h1 : e ∈ registerWorkloadsRDP pathSets host)
    (h2 : e2 ∈ registerTraitsRDP pathSets2 host2) :
    e.Metadata OAMAdapterNameMetadataKey = some TraefikOperation
    ∧ e2.Metadata OAMAdapterNameMetadataKey = some TraefikOperation
    ∧ ∀ (host3 : String) (schema : GoStr) (m : String → Option JsonVal),
        (buildOrd host3 schema m).Metadata OAMAdapterNameMetadataKey
          = some TraefikMeshOperation := by
  refine ⟨?_, ?_, ?_⟩
  · rcases List.mem_map.mp h1 with ⟨ps, _, rfl⟩
    by_cases ha : "addon".data.isSuffixOf ps.name <;>
      simp [workloadEntry, mapSet, ha, OAMAdapterNameMetadataKey,
        OAMComponentCategoryMetadataKey]
  · rcases List.mem_map.mp h2 with ⟨ps, _, rfl⟩
    simp [traitEntry, mapSet]
  · intro host3 schema m
    simp [buildOrd, mapSet]

theorem metadata_adapter_identity_witness :
    (workloadEntry "host" ⟨[], [], "x".data⟩).Metadata OAMAdapterNameMetadataKey
        = some TraefikOperation
    ∧ (traitEntry "host" ⟨[], [], "x".data⟩).Metadata OAMAdapterNameMetadataKey
        = some TraefikOperation
    ∧ ∀ (host3 : String) (schema : GoStr) (m : String → Option JsonVal),
        (buildOrd host3 schema m).Metadata OAMAdapterNameMetadataKey
          = some TraefikMeshOperation :=
  metadata_adapter_identity [⟨[], [], "x".data⟩] [⟨[], [], "x".data⟩] "host" "host"
    (workloadEntry "host" ⟨[], [], "x".data⟩) (traitEntry "host" ⟨[], [], "x".data⟩)
    (by simp [registerWorkloadsRDP]) (by simp [registerTraitsRDP])

/-- Claim C10: RegisterWorkloads additionally sets the component-category
metadata key to "addon" for every path-set whose name ends with "addon",
while RegisterTraits never sets the component-category key. -/
theorem addon_category_metadata
    (host : String) (ps : SchemaDefinitionPathSet)
    (pathSets2 : List SchemaDefinitionPathSet) (host2 : String)
    (e2 : OAMRegistrantDefinitionPath)
    (haddon : "addon".data.isSuffixOf ps.name = true)
    (h2 : e2 ∈ registerTraitsRDP pathSets2 host2) :
    (workloadEntry host ps).Metadata OAMComponentCategoryMetadataKey = some "addon"
    ∧ e2.Metadata OAMComponentCategoryMetadataKey = none := by
  constructor
  · simp [workloadEntry, mapSet, haddon]
  · rcases List.mem_map.mp h2 with ⟨ps2, _, rfl⟩
    simp [traitEntry, mapSet, OAMAdapterNameMetadataKey,
      OAMComponentCategoryMetadataKey]

theorem addon_category_metadata_witness :
    (workloadEntry "host" ⟨[], [], "myaddon".data⟩).Metadata
        OAMComponentCategoryMetadataKey = some "addon"
    ∧ (traitEntry "host" ⟨[], [], "myaddon".data⟩).Metadata
        OAMComponentCategoryMetadataKey = none :=
  addon_category_metadata "host" ⟨[], [], "myaddon".data⟩
    [⟨[], [], "myaddon".data⟩] "host" (traitEntry "host" ⟨[], [], "myaddon".data⟩)
    (by decide) (by simp [registerTraitsRDP])

theorem findValidRelease_first (chartVersionOf : String → Option String) :
    ∀ (rels : List Release) (i : Nat) (ri : Release) (cv : String),
      rels.get? i = some ri →
      (∀ j rj, j < i → rels.get? j = some rj → chartVersionOf rj.TagName = none) →
      chartVersionOf ri.TagName = some cv →
      findValidRelease chartVersionOf rels = .ok (ri.TagName, cv) := by
  intro rels
  induction rels with
  | nil => intro i ri cv hi _ _; simp at hi
  | cons r rest ih =>
    intro i ri cv hi hbefore hcv
    cases i with
    | zero =>
      simp at hi
      subst hi
      simp [findValidRelease, hcv]
    | succ j =>
      have hr : chartVersionOf r.TagName = none := hbefore 0 r (Nat.succ_pos j) rfl
      simp only [findValidRelease, hr]
      exact ih j ri cv (by simpa using hi)
        (fun j2 rj hj2 hg => hbefore (j2 + 1) rj (by omega) (by simpa using hg)) hcv

theorem findValidRelease_none (chartVersionOf : String → Option String) :
    ∀ (rels : List Release), (∀ r ∈ rels, chartVersionOf r.TagName = none) →
      findValidRelease chartVersionOf rels
        = .error "Could not find latest stable release" := by
  intro rels
  induction rels with
  | nil => intro _; rfl
  | cons r rest ih =>
    intro hnone
    have hr : chartVersionOf r.TagName = none := hnone r (by simp)
    simp only [findValidRelease, hr]
    exact ih (fun r2 h2 => hnone r2 (by simp [h2]))

/-- Claim C3: version resolution returns the tag and chart version of the
first release, in the order given (most recent first), whose tag resolves in
the chart index, and returns the not-found error when none of the (at most
10) given releases resolve. -/
theorem latest_version_resolution
    (chartVersionOf : String → Option String)
    (rels rels2 : List Release) (i : Nat) (ri : Release) (cv : String)
    (hlen : rels.length ≤ 10) (hlen2 : rels2.length ≤ 10)
    (hi : rels.get? i = some ri)
    (hbefore : ∀ j rj, j < i → rels.get? j = some rj → chartVersionOf rj.TagName = none)
    (hcv : chartVersionOf ri.TagName = some cv)
    (hnone : ∀ r ∈ rels2, chartVersionOf r.TagName = none) :
    getLatestValidAppVersionAndChartVersion (.ok rels) chartVersionOf
        = .ok (ri.TagName, cv)
    ∧ getLatestValidAppVersionAndChartVersion (.ok rels2) chartVersionOf
        = .error "Could not find latest stable release" :=
  ⟨findValidRelease_first chartVersionOf rels i ri cv hi hbefore hcv,
   findValidRelease_none chartVersionOf rels2 hnone⟩

theorem latest_version_resolution_witness :
    getLatestValidAppVersionAndChartVersion
        (.ok [⟨"v1.2"⟩, ⟨"v1.1"⟩])
        (fun t => if t = "v1.1" then some "1.1.0" else none)
      = .ok ("v1.1", "1.1.0")
    ∧ getLatestValidAppVersionAndChartVersion
        (.ok [⟨"v9"⟩])
        (fun t => if t = "v1.1" then some "1.1.0" else none)
      = .error "Could not find latest stable release" :=
  latest_version_resolution (fun t => if t = "v1.1" then some "1.1.0" else none)
    [⟨"v1.2"⟩, ⟨"v1.1"⟩] [⟨"v9"⟩] 1 ⟨"v1.1"⟩ "1.1.0"
    (by decide) (by decide) (by decide)
    (by intro j rj hj hg
        interval_cases j
        · simp at hg
          subst hg
          decide)
    (by decide)
    (by intro r hr
        simp at hr
        subst hr
        decide)

/-- Claim C4: a registrant entry whose JSON serialization fails is a
permanent, non-retried failure: the retried closure returns the marshal
error immediately (whatever the retry budget) and issues zero HTTP requests,
and the entry's processing in RegisterWorkLoadsDynamically fails with that
error having issued zero HTTP requests. -/
theorem marshal_failure_permanent
    (msg : String) (resp : Nat → Except String HttpResp) (maxE k : Nat)
    (parsed : String → Option JsonVal) :
    retryRun (fun j => postClosure (some msg) (resp j)) maxE k = (.error msg, 0)
    ∧ processEntry ⟨.ok parsed, some msg, resp⟩ = (.error msg, 0) := by
  constructor
  · exact retryRun_permanent rfl
  · simp only [processEntry]
    exact retryRun_permanent rfl

/-- Claim C2: a POST attempt succeeds exactly for HTTP status 200, 201 or
202; a non-success status yields the error carrying the last status and
message; the elapsed-time cap is 10 minutes (600000 ms); a transient failure
within the cap is retried, and a transient failure once the cap is exceeded
makes the retried call fail surfacing the last error. -/
theorem register_retry_policy
    (m : HttpResp) (op : Nat → AttemptOutcome × Nat)
    (k j c1 c2 : Nat) (e1 e2 : String)
    (hfail : registerStatusFailed m.statusCode = true)
    (hk : op k = (.transientErr e1, c1)) (hkEl : elapsedSeq k ≤ maxElapsedTimeMs)
    (hj : op j = (.transientErr e2, c2)) (hjEl : maxElapsedTimeMs < elapsedSeq j) :
    (∀ resp : Except String HttpResp,
        (postClosure none resp).1 = .success ↔
          ∃ r, resp = .ok r ∧
            (r.statusCode = 200 ∨ r.statusCode = 201 ∨ r.statusCode = 202))
    ∧ (postClosure none (.ok m)).1 = .transientErr (regFailMsg m)
    ∧ maxElapsedTimeMs = 600000
    ∧ (retryRun op maxElapsedTimeMs k).1 = (retryRun op maxElapsedTimeMs (k + 1)).1
    ∧ (retryRun op maxElapsedTimeMs j).1 = .error e2 := by
  refine ⟨?_, ?_, rfl, ?_, ?_⟩
  · intro resp
    cases resp with
    | error msg => simp [postClosure]
    | ok r =>
      simp only [postClosure]
      by_cases hf : registerStatusFailed r.statusCode
      · rw [if_pos hf]
        simp only [registerStatusFailed, Bool.and_eq_true, bne_iff_ne] at hf
        constructor
        · intro h; cases h
        · rintro ⟨r2, hr2, hcode⟩
          cases hr2
          omega
      · rw [if_neg hf]
        simp only [registerStatusFailed, Bool.and_eq_true, bne_iff_ne] at hf
        constructor
        · intro _
          refine ⟨r, rfl, ?_⟩
          by_cases h201 : r.statusCode = 201
          · omega
          · by_cases h200 : r.statusCode = 200
            · omega
            · have h202 : r.statusCode = 202 := by
                by_contra h202
                exact hf ⟨⟨h201, h200⟩, h202⟩
              omega
        · intro _; rfl
  · simp [postClosure, hfail]
  · rw [retryRun_transient_go hk hkEl]
  · exact congrArg Prod.fst (retryRun_transient_stop hj hjEl)

theorem register_retry_policy_witness :
    (∀ resp : Except String HttpResp,
        (postClosure none resp).1 = .success ↔
          ∃ r, resp = .ok r ∧
            (r.statusCode = 200 ∨ r.statusCode = 201 ∨ r.statusCode = 202))
    ∧ (postClosure none (.ok ⟨500, "500 Internal Server Error"⟩)).1
        = .transientErr (regFailMsg ⟨500, "500 Internal Server Error"⟩)
    ∧ maxElapsedTimeMs = 600000
    ∧ (retryRun (fun _ => (.transientErr "boom", 1)) maxElapsedTimeMs 0).1
        = (retryRun (fun _ => (.transientErr "boom", 1)) maxElapsedTimeMs 1).1
    ∧ (retryRun (fun _ => (.transientErr "boom", 1)) maxElapsedTimeMs 30).1
        = .error "boom" :=
  register_retry_policy ⟨500, "500 Internal Server Error"⟩
    (fun _ => (.transientErr "boom", 1)) 0 30 1 1 "boom" "boom"
    (by decide) rfl (by decide) rfl (by decide)

/-- The conditions under which one loop iteration of
`RegisterWorkLoadsDynamically` succeeds on its very first POST: the
definition parses, marshalling succeeds, and the first response has a
success status. -/
def entryFirstTrySucceeds (o : EntryOracle) : Prop :=
  (∃ p, o.parseResult = .ok p) ∧ o.marshalError = none ∧
    ∃ r, o.responses 0 = .ok r ∧ registerStatusFailed r.statusCode = false

theorem processEntry_first_try {o : EntryOracle} (h : entryFirstTrySucceeds o) :
    processEntry o = (.ok (), 1) := by
  obtain ⟨⟨p, hp⟩, hm, r, hr, hf⟩ := h
  simp only [processEntry, hp]
  exact retryRun_success (by simp [postClosure, hm, hr, hf])

theorem registerLoopAux_all_ok (schemas : List GoStr) (oracles : Nat → EntryOracle) :
    ∀ (rest : List GoStr) (i : Nat),
      i + rest.length ≤ schemas.length →
      (∀ j, j < rest.length → entryFirstTrySucceeds (oracles (i + j))) →
      registerLoopAux schemas oracles rest i = (.ok, rest.length) := by
  intro rest
  induction rest with
  | nil => intro i _ _; rfl
  | cons d rest ih =>
    intro i hlen hok
    have hi : i < schemas.length := by simp at hlen; omega
    have h0 : entryFirstTrySucceeds (oracles i) := by simpa using hok 0 (by simp)
    simp only [registerLoopAux, List.get?_eq_get hi, processEntry_first_try h0]
    have hrec : registerLoopAux schemas oracles rest (i + 1) = (.ok, rest.length) := by
      refine ih (i + 1) (by simp at hlen ⊢; omega) ?_
      intro j hj
      have h := hok (j + 1) (by simp; omega)
      rw [show i + 1 + j = i + (j + 1) by omega]
      exact h
    rw [hrec]
    simp [Nat.add_comm]

/-- Claim C5: with every entry's first POST succeeding (and a well-formed
fetch result), registering a batch of N definitions issues exactly one POST
per entry — N in total — and a batch of size 0 issues zero requests. -/
theorem batch_post_count
    (defs schemas : List GoStr) (oracles : Nat → EntryOracle)
    (hlen : defs.length ≤ schemas.length)
    (hok : ∀ i, i < defs.length → entryFirstTrySucceeds (oracles i)) :
    registerLoop defs schemas oracles = (.ok, defs.length)
    ∧ ∀ (schemas2 : List GoStr) (oracles2 : Nat → EntryOracle),
        registerLoop [] schemas2 oracles2 = (.ok, 0) :=
  ⟨registerLoopAux_all_ok schemas oracles defs 0 (by simpa using hlen)
      (fun j hj => by simpa using hok j hj),
   fun _ _ => rfl⟩

/-- An oracle whose entry always parses, marshals and POSTs successfully. -/
def happyOracle : EntryOracle :=
  ⟨.ok (fun _ => none), none, fun _ => .ok ⟨200, "200 OK"⟩⟩

theorem happyOracle_succeeds : entryFirstTrySucceeds happyOracle :=
  ⟨⟨fun _ => none, rfl⟩, rfl, ⟨200, "200 OK"⟩, rfl, by decide⟩

theorem batch_post_count_witness :
    registerLoop [['d']] [['s']] (fun _ => happyOracle) = (.ok, 1)
    ∧ ∀ (schemas2 : List GoStr) (oracles2 : Nat → EntryOracle),
        registerLoop [] schemas2 oracles2 = (.ok, 0) :=
  batch_post_count [['d']] [['s']] (fun _ => happyOracle) (by decide)
    (fun _ _ => happyOracle_succeeds)

theorem registerLoopAux_no_panic (schemas : List GoStr) (oracles : Nat → EntryOracle) :
    ∀ (rest : List GoStr) (i : Nat), i + rest.length ≤ schemas.length →
      (registerLoopAux schemas oracles rest i).1 ≠ .panic := by
  intro rest
  induction rest with
  | nil => intro i _; simp [registerLoopAux]
  | cons d rest ih =>
    intro i hlen
    have hi : i < schemas.length := by simp at hlen; omega
    simp only [registerLoopAux, List.get?_eq_get hi]
    cases hpe : processEntry (oracles i) with
    | mk r c =>
      cases r with
      | error msg => simp
      | ok u =>
        cases hrec : registerLoopAux schemas oracles rest (i + 1) with
        | mk r2 c2 =>
          have h := ih (i + 1) (by simp at hlen ⊢; omega)
          rw [hrec] at h
          simpa using h

theorem registerLoopAux_happy_panic (schemas : List GoStr) :
    ∀ (rest : List GoStr) (i : Nat),
      schemas.length < i + rest.length → i ≤ schemas.length →
      (registerLoopAux schemas (fun _ => happyOracle) rest i).1 = .panic := by
  intro rest
  induction rest with
  | nil => intro i h1 h2; simp at h1; omega
  | cons d rest ih =>
    intro i h1 h2
    rcases Nat.lt_or_ge i schemas.length with hi | hi
    · simp only [registerLoopAux, List.get?_eq_get hi,
        processEntry_first_try happyOracle_succeeds]
      have h := ih (i + 1) (by simp at h1 ⊢; omega) (by omega)
      cases hrec : registerLoopAux schemas (fun _ => happyOracle) rest (i + 1) with
      | mk r2 c2 =>
        rw [hrec] at h
        simpa using h
    · have hnone : schemas.get? i = none := List.get?_eq_none.mpr hi
      simp only [registerLoop, registerLoopAux, hnone]

/-- Claim C9: the loop of RegisterWorkLoadsDynamically indexes Schemas at
each Definitions index with no length check: it never panics when the fetch
result has at least as many Schemas as Definitions, and with fewer Schemas
than Definitions it panics (shown with every entry succeeding, so the
missing index is reached). -/
theorem schema_index_precondition
    (defs schemas defs2 schemas2 : List GoStr) (oracles : Nat → EntryOracle)
    (h1 : defs.length ≤ schemas.length)
    (h2 : schemas2.length < defs2.length) :
    (registerLoop defs schemas oracles).1 ≠ .panic
    ∧ (registerLoop defs2 schemas2 (fun _ => happyOracle)).1 = .panic :=
  ⟨registerLoopAux_no_panic schemas oracles defs 0 (by simpa using h1),
   registerLoopAux_happy_panic schemas2 defs2 0 (by simpa using h2) (Nat.zero_le _)⟩

theorem schema_index_precondition_witness :
    (registerLoop [] [] (fun _ => happyOracle)).1 ≠ .panic
    ∧ (registerLoop [['d']] [] (fun _ => happyOracle)).1 = .panic :=
  schema_index_precondition [] [] [['d']] [] (fun _ => happyOracle)
    (by decide) (by decide)

theorem takeWhile_append_all {q : Char → Bool} {l1 : GoStr} (l2 : GoStr)
    (h : ∀ c ∈ l1, q c = true) :
    (l1 ++ l2).takeWhile q = l1 ++ l2.takeWhile q := by
  induction l1 with
  | nil => simp
  | cons a t ih =>
    have ha : q a = true := h a (by simp)
    rw [List.cons_append, List.takeWhile_cons, if_pos ha,
      ih (fun c hc => h c (by simp [hc])), List.cons_append]

theorem head_dropWhile_false {q : Char → Bool} :
    ∀ (l : GoStr) (c : Char) (t : GoStr), l.dropWhile q = c :: t → q c = false := by
  intro l
  induction l with
  | nil => intro c t h; simp [List.dropWhile] at h
  | cons a l ih =>
    intro c t h
    by_cases ha : q a
    · rw [List.dropWhile_cons_of_pos ha] at h
      exact ih c t h
    · rw [List.dropWhile_cons_of_neg ha] at h
      cases h
      simpa using ha

theorem goTrimSuffix_append (w sfx : GoStr) : goTrimSuffix (w ++ sfx) sfx = w := by
  have hs : sfx.isSuffixOf (w ++ sfx) = true :=
    List.isSuffixOf_iff_suffix.mpr ⟨w, rfl⟩
  unfold goTrimSuffix
  rw [if_pos hs]
  have h : (w ++ sfx).length - sfx.length = w.length := by simp
  rw [h, List.take_left]

theorem goBase_eq_takeWhile {p : GoStr} (hne : p ≠ [])
    (hlast : p.getLast? ≠ some pathSep) :
    goBase p = ((p.reverse).takeWhile (fun c => c != pathSep)).reverse := by
  obtain ⟨c, t, hct⟩ : ∃ c t, p.reverse = c :: t := by
    cases hp : p.reverse with
    | nil => exact absurd (List.reverse_eq_nil_iff.mp hp) hne
    | cons c t => exact ⟨c, t, rfl⟩
  have hc : c ≠ pathSep := by
    intro h
    apply hlast
    rw [← List.head?_reverse, hct, h]
    rfl
  simp only [goBase, if_neg hne]
  rw [hct, List.dropWhile_cons_of_neg (by simpa using hc), if_neg (by simp)]

theorem goBase_decomp {p : GoStr} (hne : p ≠ [])
    (hlast : p.getLast? ≠ some pathSep) :
    p = ((p.reverse).dropWhile (fun c => c != pathSep)).reverse ++ goBase p := by
  rw [goBase_eq_takeWhile hne hlast]
  conv_lhs =>
    rw [← p.reverse_reverse,
      ← List.takeWhile_append_dropWhile (fun c => c != pathSep) p.reverse]
  rw [List.reverse_append]

theorem goBase_no_sep {p : GoStr} (hne : p ≠ [])
    (hlast : p.getLast? ≠ some pathSep) : ∀ c ∈ goBase p, c ≠ pathSep := by
  rw [goBase_eq_takeWhile hne hlast]
  intro c hc
  have hmem : c ∈ (p.reverse).takeWhile (fun c => c != pathSep) :=
    List.mem_reverse.mp hc
  have := List.mem_takeWhile_imp hmem
  simpa using this

theorem load_entry_name (p : GoStr) (hne : p ≠ [])
    (hlast : p.getLast? ≠ some pathSep)
    (hmatch : matchDefinitionJson (goBase p) = true) :
    defSuffix.isSuffixOf p = true
    ∧ (goTrimSuffix (goBase p) defSuffix ≠ [] →
        goBase (goTrimSuffix p defSuffix) = goTrimSuffix (goBase p) defSuffix) := by
  have hsfx_b : defSuffix <:+ goBase p := by
    unfold matchDefinitionJson at hmatch
    simp only [Bool.and_eq_true] at hmatch
    exact List.isSuffixOf_iff_suffix.mp hmatch.1
  obtain ⟨w, hw⟩ := hsfx_b
  have hdecomp := goBase_decomp hne hlast
  set pre := ((p.reverse).dropWhile (fun c => c != pathSep)).reverse with hpre_def
  have hb_suffix_p : goBase p <:+ p := ⟨pre, hdecomp.symm⟩
  constructor
  · exact List.isSuffixOf_iff_suffix.mpr (List.IsSuffix.trans ⟨w, hw⟩ hb_suffix_p)
  · intro hnil
    have hwb : goTrimSuffix (goBase p) defSuffix = w := by
      rw [← hw, goTrimSuffix_append]
    rw [hwb] at hnil ⊢
    have hp2 : p = (pre ++ w) ++ defSuffix := by
      rw [hdecomp, ← hw, List.append_assoc]
    have htrim : goTrimSuffix p defSuffix = pre ++ w := by
      rw [hp2, goTrimSuffix_append]
    rw [htrim]
    have hw_nosep : ∀ c ∈ w, c ≠ pathSep := by
      intro c hc
      exact goBase_no_sep hne hlast c (by rw [← hw]; exact List.mem_append_left _ hc)
    obtain ⟨c, t, hct⟩ : ∃ c t, w.reverse = c :: t := by
      cases hwr : w.reverse with
      | nil => exact absurd (List.reverse_eq_nil_iff.mp hwr) hnil
      | cons c t => exact ⟨c, t, rfl⟩
    have hc : c ≠ pathSep := hw_nosep c (List.mem_reverse.mp (by rw [hct]; simp))
    have hne2 : pre ++ w ≠ [] := by
      intro h
      exact hnil (List.append_eq_nil.mp h).2
    simp only [goBase, if_neg hne2]
    have hrev : (pre ++ w).reverse = c :: (t ++ pre.reverse) := by
      rw [List.reverse_append, hct, List.cons_append]
    rw [hrev, List.dropWhile_cons_of_neg (by simpa using hc), if_neg (by simp)]
    rw [show c :: (t ++ pre.reverse) = (c :: t) ++ pre.reverse from
      by rw [List.cons_append]]
    rw [← hct]
    rw [takeWhile_append_all pre.reverse (fun x hx => by
      simpa using hw_nosep x (List.mem_reverse.mp hx))]
    have hpre_tw : (pre.reverse).takeWhile (fun c => c != pathSep) = [] := by
      have hpr : pre.reverse = (p.reverse).dropWhile (fun c => c != pathSep) := by
        rw [hpre_def, List.reverse_reverse]
      cases hd : (p.reverse).dropWhile (fun c => c != pathSep) with
      | nil => rw [hpr, hd]; rfl
      | cons d t2 =>
        have hdf : (fun c => c != pathSep) d = false := head_dropWhile_false _ d t2 hd
        rw [hpr, hd, List.takeWhile_cons_of_neg (by simp [hdf])]
    rw [hpre_tw, List.append_nil, List.reverse_reverse]

/-- Claim C1 falls on the path-set name: for the file `a/_definition.json`
(base name matched by the pattern with an empty star), the code's name is
`filepath.Base` of the suffix-stripped path — here "a", the parent directory
name — while the base name with the suffix stripped is empty. -/
theorem load_name_counterexample :
    load [⟨"a/_definition.json".data, false, none⟩]
      = .ok [⟨"a/_definition.json".data,
              "a/.meshery.layer5io.schema.json".data, "a".data⟩]
    ∧ goTrimSuffix (goBase "a/_definition.json".data) defSuffix = []
    ∧ "a".data ≠ ([] : GoStr) :=
  ⟨rfl, by decide, by decide⟩

/-- Claim C1 (amended): over any error-free walk of a root directory (file
paths nonempty and without a trailing separator, as `filepath.Walk` yields
them), `load` returns exactly one path-set per file whose base name matches
`*_definition.json`; each path-set's definition path ends in
`_definition.json`, its schema path is the definition path with that suffix
replaced by `.meshery.layer5io.schema.json`, and its name is `filepath.Base`
of the suffix-stripped path — which equals the base name with the suffix
stripped whenever that stripped base name is nonempty. -/
theorem load_pathsets_amended :
    ∀ (entries : List WalkEntry) (res : List SchemaDefinitionPathSet),
      (∀ e ∈ entries, e.path ≠ [] ∧ e.path.getLast? ≠ some pathSep) →
      load entries = .ok res →
      res.length
          = List.countP (fun e => !e.isDir && matchDefinitionJson (goBase e.path))
              entries
      ∧ ∀ ps ∈ res,
          defSuffix.isSuffixOf ps.oamDefinitionPath = true
          ∧ ps.jsonSchemaPath
              = goTrimSuffix ps.oamDefinitionPath defSuffix ++ schemaSuffix
          ∧ ps.name = goBase (goTrimSuffix ps.oamDefinitionPath defSuffix)
          ∧ (goTrimSuffix (goBase ps.oamDefinitionPath) defSuffix ≠ [] →
              ps.name = goTrimSuffix (goBase ps.oamDefinitionPath) defSuffix) := by
  intro entries
  induction entries with
  | nil =>
    intro res _ hload
    simp only [load] at hload
    cases hload
    exact ⟨by simp, by simp⟩
  | cons e rest ih =>
    intro res hpaths hload
    have hp := hpaths e (by simp)
    simp only [load] at hload
    cases herr : e.errMsg with
    | some msg =>
      rw [herr] at hload
      simp at hload
    | none =>
      rw [herr] at hload
      by_cases hdir : e.isDir = true
      · rw [if_pos hdir] at hload
        obtain ⟨hlen, hall⟩ := ih res (fun x hx => hpaths x (by simp [hx])) hload
        refine ⟨?_, hall⟩
        rw [List.countP_cons]
        simp [hdir, hlen]
      · rw [if_neg hdir] at hload
        by_cases hm : matchDefinitionJson (goBase e.path) = true
        · rw [if_pos hm] at hload
          cases hrest : load rest with
          | error msg =>
            rw [hrest] at hload
            simp at hload
          | ok r =>
            rw [hrest] at hload
            simp only [Except.ok.injEq] at hload
            subst hload
            obtain ⟨hlen, hall⟩ := ih r (fun x hx => hpaths x (by simp [hx])) hrest
            constructor
            · rw [List.countP_cons]
              simp [hdir, hm, hlen]
            · intro ps hps
              rcases List.mem_cons.mp hps with rfl | hp2
              · have hmain := load_entry_name e.path hp.1 hp.2 hm
                exact ⟨hmain.1, rfl, rfl, fun hnil => hmain.2 hnil⟩
              · exact hall ps hp2
        · rw [if_neg hm] at hload
          obtain ⟨hlen, hall⟩ := ih res (fun x hx => hpaths x (by simp [hx])) hload
          refine ⟨?_, hall⟩
          rw [List.countP_cons]
          simp [hm, hlen]

theorem load_pathsets_amended_witness :
    [SchemaDefinitionPathSet.mk "dir/foo_definition.json".data
        "dir/foo.meshery.layer5io.schema.json".data "foo".data].length
      = List.countP (fun e => !e.isDir && matchDefinitionJson (goBase e.path))
          [WalkEntry.mk "dir/foo_definition.json".data false none]
    ∧ ∀ ps ∈ [SchemaDefinitionPathSet.mk "dir/foo_definition.json".data
          "dir/foo.meshery.layer5io.schema.json".data "foo".data],
        defSuffix.isSuffixOf ps.oamDefinitionPath = true
        ∧ ps.jsonSchemaPath
            = goTrimSuffix ps.oamDefinitionPath defSuffix ++ schemaSuffix
        ∧ ps.name = goBase (goTrimSuffix ps.oamDefinitionPath defSuffix)
        ∧ (goTrimSuffix (goBase ps.oamDefinitionPath) defSuffix ≠ [] →
            ps.name = goTrimSuffix (goBase ps.oamDefinitionPath) defSuffix) :=
  load_pathsets_amended [⟨"dir/foo_definition.json".data, false, none⟩]
    [⟨"dir/foo_definition.json".data,
      "dir/foo.meshery.layer5io.schema.json".data, "foo".data⟩]
    (by decide) rfl
